import Mathlib

/-!
Verification of the DT4PED dashboard (simulation_dashboard.py).

The development shallowly embeds the data-handling logic of the dashboard:
the CSV loading step that decodes the two list-valued material columns with
a literal parser, the derived layer columns with their ordinal tick
encoding, the KPI summary block, and the multi-criteria weighted-rank
selector. Real numbers from the program are modelled as rationals, the
fallible steps return Except values, and the pandas sorts are modelled as
stable ascending sorts (List.mergeSort).
-/

namespace Dashboard

/-! ## Character-level literal parsing and printing

Models the ast.literal_eval call applied to the wall_materials and
roof_materials CSV cells, restricted to the grammar those cells use:
a bracketed, comma-separated sequence of quoted string literals. The
printer models the canonical Python textual form (repr) of a list of
strings over printable characters.
-/

/-- The single-quote character. -/
def sq : Char := Char.ofNat 39

/-- The double-quote character. -/
def dq : Char := Char.ofNat 34

/-- The backslash character. -/
def bsl : Char := Char.ofNat 92

/-- The newline character. -/
def nlc : Char := Char.ofNat 10

/-- The carriage-return character. -/
def crc : Char := Char.ofNat 13

/-- The tab character. -/
def tabc : Char := Char.ofNat 9

/-- Decode one escaped character following a backslash inside a string
literal: the short escapes n, r, t map to their control characters, a
quote or a backslash maps to itself, and any other escape keeps the
backslash (as the Python tokenizer does). -/
def unescapeChar (e : Char) : List Char :=
  if e = 'n' then [nlc]
  else if e = 'r' then [crc]
  else if e = 't' then [tabc]
  else if e = bsl then [bsl]
  else if e = sq then [sq]
  else if e = dq then [dq]
  else [bsl, e]

/-- Parse the body of a string literal delimited by quote character q:
consume characters until the closing quote, decoding backslash escapes,
and rejecting a raw newline (illegal inside a Python string literal).
Returns the decoded characters and the remaining input. -/
def parseStrBody (q : Char) : List Char → Option (List Char × List Char)
  | [] => none
  | c :: rest =>
    if c = q then some ([], rest)
    else if c = bsl then
      match rest with
      | [] => none
      | e :: rest2 =>
        (parseStrBody q rest2).map (fun p => (unescapeChar e ++ p.1, p.2))
    else if c = nlc then none
    else (parseStrBody q rest).map (fun p => (c :: p.1, p.2))

/-- Parse one quoted string literal (single- or double-quoted). -/
def parseStrLit (l : List Char) : Option (List Char × List Char) :=
  match l with
  | [] => none
  | c :: rest =>
    if c = sq then parseStrBody sq rest
    else if c = dq then parseStrBody dq rest
    else none

/-- Drop leading space characters. -/
def skipSp (l : List Char) : List Char := l.dropWhile (fun c => c = ' ')

/-- After an item inside the bracketed list, parse the remaining items:
either the closing bracket, or a comma followed by the next string
literal (a trailing comma before the closing bracket is accepted, as
the literal grammar allows). Fuelled by the number of items left. -/
def parseTail : Nat → List Char → Option (List (List Char) × List Char)
  | 0, _ => none
  | fuel + 1, l =>
    match skipSp l with
    | [] => none
    | c :: rest =>
      if c = ']' then some ([], rest)
      else if c = ',' then
        match skipSp rest with
        | [] => none
        | c2 :: rest2 =>
          if c2 = ']' then some ([], rest2)
          else
            match parseStrLit (c2 :: rest2) with
            | some (s, rest3) =>
              (parseTail fuel rest3).map (fun p => (s :: p.1, p.2))
            | none => none
      else none

/-- Parse a complete list-of-strings literal: an opening bracket, zero or
more quoted string literals separated by commas, a closing bracket, and
nothing but spaces around them. -/
def parseListChars (l : List Char) : Option (List (List Char)) :=
  match skipSp l with
  | [] => none
  | c :: rest =>
    if c = '[' then
      match skipSp rest with
      | [] => none
      | c2 :: rest2 =>
        if c2 = ']' then
          if skipSp rest2 = [] then some [] else none
        else
          match parseStrLit (c2 :: rest2) with
          | some (s, rest3) =>
            match parseTail (rest3.length + 1) rest3 with
            | some (items, rest4) =>
              if skipSp rest4 = [] then some (s :: items) else none
            | none => none
          | none => none
    else none

/-- The quote character the textual form of a string uses: a single
quote, unless the string contains a single quote and no double quote. -/
def chooseQuote (s : List Char) : Char :=
  if sq ∈ s ∧ ¬ dq ∈ s then dq else sq

/-- Escape one character for inclusion in a string literal delimited by
quote character q. -/
def escapeChar (q : Char) (c : Char) : List Char :=
  if c = bsl then [bsl, bsl]
  else if c = q then [bsl, q]
  else if c = nlc then [bsl, 'n']
  else if c = crc then [bsl, 'r']
  else if c = tabc then [bsl, 't']
  else [c]

/-- The textual form of one string: quote, escaped body, quote. -/
def reprStrChars (s : List Char) : List Char :=
  chooseQuote s :: (s.map (escapeChar (chooseQuote s))).flatten ++ [chooseQuote s]

/-- The comma-space separated textual forms of the remaining items. -/
def sepItems : List (List Char) → List Char
  | [] => []
  | x :: rest => ',' :: ' ' :: reprStrChars x ++ sepItems rest

/-- The textual form of a list of strings, as Python prints it. -/
def pyReprList (xs : List (List Char)) : List Char :=
  match xs with
  | [] => ['[', ']']
  | x :: rest => '[' :: (reprStrChars x ++ sepItems rest) ++ [']']

/-- String-level entry point of the cell parser: models
ast.literal_eval on a list-of-strings cell, returning none where the
Python call raises. -/
def literalEvalStrList (s : String) : Option (List String) :=
  (parseListChars s.data).map (fun xs => xs.map (fun cs => String.mk cs))

/-- String-level textual form of a list of strings. -/
def pyRepr (xs : List String) : String :=
  String.mk (pyReprList (xs.map (fun s => s.data)))

/-! ## Data model and loading (load_data, lines 112-121) -/

/-- A raw row of summary.csv: the two material columns still hold their
textual cell contents, the metric columns are already numeric. -/
structure RawRecord where
  package : String
  wall_materials_cell : String
  roof_materials_cell : String
  heating_demand_kwh_per_m2 : ℚ
  gwp_kgco2e : ℚ
  cost_sek : ℚ
deriving DecidableEq

/-- A loaded package record, after the two material cells are decoded
into ordered lists and the display join-strings are derived. -/
structure Record where
  package : String
  wall_materials : List String
  roof_materials : List String
  wall_materials_str : String
  roof_materials_str : String
  heating_demand_kwh_per_m2 : ℚ
  gwp_kgco2e : ℚ
  cost_sek : ℚ
deriving DecidableEq

/-- The error signalled when a list-valued cell is not a syntactically
valid list literal (ast.literal_eval raising inside load_data). -/
inductive LoadError where
  | MalformedRecordError
deriving DecidableEq

/-- Decode one raw row: apply the literal parser to both material cells
(lines 115-116) and derive the comma-joined display strings
(lines 117-118); a parse failure on either cell is the error the load
propagates. -/
def loadRow (r : RawRecord) : Except LoadError Record :=
  match literalEvalStrList r.wall_materials_cell,
        literalEvalStrList r.roof_materials_cell with
  | some w, some rf =>
    .ok { package := r.package
          wall_materials := w
          roof_materials := rf
          wall_materials_str := String.intercalate (", ") w
          roof_materials_str := String.intercalate (", ") rf
          heating_demand_kwh_per_m2 := r.heating_demand_kwh_per_m2
          gwp_kgco2e := r.gwp_kgco2e
          cost_sek := r.cost_sek }
  | _, _ => .error .MalformedRecordError

/-- load_data over the whole file: every row must decode; the first
malformed cell aborts the load and no partial record set is produced. -/
def load_data : List RawRecord → Except LoadError (List Record)
  | [] => .ok []
  | r :: rest =>
    match loadRow r, load_data rest with
    | .ok rec, .ok recs => .ok (rec :: recs)
    | .error e, _ => .error e
    | .ok _, .error e => .error e

/-! ## Derived layer columns (lines 226-228) -/

/-- The layer value at index i of a material list: the positional
element when the list is long enough, the sentinel otherwise
(the conditional x[i] if len(x) > i else the sentinel). -/
def layerVal (xs : List String) (i : Nat) : String :=
  if h : i < xs.length then xs.get ⟨i, h⟩ else ("None")

/-- A record together with its six derived layer columns. -/
structure DerivedRecord where
  base : Record
  wall_cladding : String
  wall_membrane : String
  wall_insulation : String
  roof_cladding : String
  roof_membrane : String
  roof_insulation : String
deriving DecidableEq

/-- The derive step: layer column i (cladding 0, membrane 1,
insulation 2) for each of the two material categories. -/
def derive (r : Record) : DerivedRecord :=
  { base := r
    wall_cladding := layerVal r.wall_materials 0
    wall_membrane := layerVal r.wall_materials 1
    wall_insulation := layerVal r.wall_materials 2
    roof_cladding := layerVal r.roof_materials 0
    roof_membrane := layerVal r.roof_materials 1
    roof_insulation := layerVal r.roof_materials 2 }

/-! ## Ordinal tick encoding (lines 230-246) -/

/-- The distinct values of a column in first-occurrence order, as the
unique method yields them. -/
def uniqueFirst : List String → List String
  | [] => []
  | x :: xs => x :: uniqueFirst (xs.filter (fun y => decide (y ≠ x)))
termination_by l => l.length
decreasing_by
  simp only [List.length_cons]
  exact Nat.lt_succ_of_le (List.length_filter_le _ _)

/-- The ordinal assigned to a category value: its index in the
first-occurrence list of distinct values (the tick_dict mapping built
from range(len(unique)) indexed by unique). -/
def ordinalOf (xs : List String) (v : String) : Nat :=
  (uniqueFirst xs).indexOf v

/-- The dummy column: each cell mapped through the tick_dict mapping. -/
def encodeColumn (xs : List String) : List Nat :=
  xs.map (fun v => ordinalOf xs v)

/-- The tickvals attached to the dimension of a categorical column. -/
def tickvals (xs : List String) : List Nat :=
  List.range (uniqueFirst xs).length

/-- The ticktext attached to the dimension of a categorical column. -/
def ticktext (xs : List String) : List String :=
  uniqueFirst xs

/-! ## KPI summary block (lines 124-131 and 167) -/

/-- The error signalled when the KPI block runs on zero records (the
positional access into the first sorted row has nothing to return). -/
inductive StatsError where
  | EmptyDatasetError
deriving DecidableEq

/-- Ascending stable sort of the records by a metric, modelling
sort_values on that column. -/
def sortByMetric (f : Record → ℚ) (rs : List Record) : List Record :=
  rs.mergeSort (fun a b => decide (f a ≤ f b))

/-- The median of a column: middle element of the ascending sort for an
odd count, mean of the two middle elements for an even count. -/
def medianVals (xs : List ℚ) : ℚ :=
  let s := xs.mergeSort (fun a b => decide (a ≤ b))
  if s.length % 2 = 1 then s.getD (s.length / 2) 0
  else (s.getD (s.length / 2 - 1) 0 + s.getD (s.length / 2) 0) / 2

/-- The values the KPI block of the dashboard computes. -/
structure KPIStats where
  best_heat_pkg : Record
  best_gwp_pkg : Record
  best_cost_pkg : Record
  median_heat : ℚ
  median_gwp : ℚ
  median_cost : ℚ
  cost_min : ℚ
  cost_max : ℚ
deriving DecidableEq

/-- The KPI summary block: on zero records the very first positional
access fails, so the block signals the empty-dataset error before any
statistic is produced; on a non-empty record set it returns the three
best-performing packages, the three medians, and the cost range. -/
def summaryStats : List Record → Except StatsError KPIStats
  | [] => .error .EmptyDatasetError
  | r :: rest =>
    .ok { best_heat_pkg :=
            (sortByMetric (fun x => x.heating_demand_kwh_per_m2) (r :: rest)).headD r
          best_gwp_pkg := (sortByMetric (fun x => x.gwp_kgco2e) (r :: rest)).headD r
          best_cost_pkg := (sortByMetric (fun x => x.cost_sek) (r :: rest)).headD r
          median_heat := medianVals ((r :: rest).map (fun x => x.heating_demand_kwh_per_m2))
          median_gwp := medianVals ((r :: rest).map (fun x => x.gwp_kgco2e))
          median_cost := medianVals ((r :: rest).map (fun x => x.cost_sek))
          cost_min := ((r :: rest).map (fun x => x.cost_sek)).foldl min r.cost_sek
          cost_max := ((r :: rest).map (fun x => x.cost_sek)).foldl max r.cost_sek }

/-! ## Multi-criteria selector (lines 276-302) -/

/-- The error signalled when all ranking weights are zero: the
selector block warns and skips ranking instead of dividing. -/
inductive RankError where
  | NoCriteriaSelectedError
deriving DecidableEq

/-- The fractional rank of value v within the column vs, as the rank
method computes it with its defaults: ascending, 1-based, tied values
receiving the average of their tied positions. Concretely the count of
strictly smaller entries plus half of (the count of equal entries plus
one). -/
def frank (vs : List ℚ) (v : ℚ) : ℚ :=
  (vs.countP (fun u => decide (u < v)) : ℚ) +
    ((vs.countP (fun u => decide (u = v)) : ℚ) + 1) / 2

/-- The composite score of a record (line 295-299): each metric column
ranked, each rank multiplied by its (already normalized) weight, and
the three products summed. -/
def score (rs : List Record) (gw cw hw : ℚ) (r : Record) : ℚ :=
  frank (rs.map (fun x => x.gwp_kgco2e)) r.gwp_kgco2e * gw +
  frank (rs.map (fun x => x.cost_sek)) r.cost_sek * cw +
  frank (rs.map (fun x => x.heating_demand_kwh_per_m2)) r.heating_demand_kwh_per_m2 * hw

/-- The weight normalization of the selector (lines 280-286): each raw
weight divided by the total of the three. -/
def normalizeWeights (g c h : ℚ) : ℚ × ℚ × ℚ :=
  (g / (g + c + h), c / (g + c + h), h / (g + c + h))

/-- The rank operation of the multi-criteria selector: a zero weight
total signals the no-criteria error before any normalization or score
computation; otherwise the weights are normalized, every record is
scored, and the records are sorted ascending by score. -/
def rank (rs : List Record) (gw_raw cw_raw hw_raw : ℚ) :
    Except RankError (List Record) :=
  if gw_raw + cw_raw + hw_raw = 0 then .error .NoCriteriaSelectedError
  else
    let gw := gw_raw / (gw_raw + cw_raw + hw_raw)
    let cw := cw_raw / (gw_raw + cw_raw + hw_raw)
    let hw := hw_raw / (gw_raw + cw_raw + hw_raw)
    .ok (rs.mergeSort (fun a b =>
      decide (score rs gw cw hw a ≤ score rs gw cw hw b)))

/-- The selector output shown to the user: the first n rows of the
score-sorted records (head(6) in the selector, head(10) elsewhere). -/
def rankTop (rs : List Record) (g c h : ℚ) (n : Nat) :
    Except RankError (List Record) :=
  (rank rs g c h).map (fun l => l.take n)

/-! ## Spec-side scoring definitions for the refinement claims -/

/-- The sum over the occurrences of v in the list of their positions,
where the first element of the list has position k. -/
def posWeightedCount (v : ℚ) : List ℚ → Nat → ℚ
  | [], _ => 0
  | a :: t, k => (if a = v then (k : ℚ) else 0) + posWeightedCount v t (k + 1)

/-- Modelled from the spec: the fractional rank of v — the average of
the 1-based positions v occupies in the ascending sort of the column,
so that tied values receive the average of their tied positions and the
lowest value gets rank 1. -/
def specFrank (vs : List ℚ) (v : ℚ) : ℚ :=
  let s := vs.mergeSort (fun a b => decide (a ≤ b))
  posWeightedCount v s 1 / (s.countP (fun u => decide (u = v)) : ℚ)

/-- Modelled from the spec: composite score = Σ over the three metrics
of (normalized weight × fractional rank of the record on that metric). -/
def specScore (rs : List Record) (g c h : ℚ) (r : Record) : ℚ :=
  (g / (g + c + h)) * specFrank (rs.map (fun x => x.gwp_kgco2e)) r.gwp_kgco2e +
  (c / (g + c + h)) * specFrank (rs.map (fun x => x.cost_sek)) r.cost_sek +
  (h / (g + c + h)) *
    specFrank (rs.map (fun x => x.heating_demand_kwh_per_m2)) r.heating_demand_kwh_per_m2

/-! ## The three concrete records of the end-to-end example -/

/-- Record A of the end-to-end example: gwp 10, cost 100, heating 50. -/
def recA : Record :=
  { package := ("A"), wall_materials := [], roof_materials := []
    wall_materials_str := (""), roof_materials_str := ("")
    heating_demand_kwh_per_m2 := 50, gwp_kgco2e := 10, cost_sek := 100 }

/-- Record B of the end-to-end example: gwp 20, cost 50, heating 40. -/
def recB : Record :=
  { package := ("B"), wall_materials := [], roof_materials := []
    wall_materials_str := (""), roof_materials_str := ("")
    heating_demand_kwh_per_m2 := 40, gwp_kgco2e := 20, cost_sek := 50 }

/-- Record C of the end-to-end example: gwp 15, cost 75, heating 45. -/
def recC : Record :=
  { package := ("C"), wall_materials := [], roof_materials := []
    wall_materials_str := (""), roof_materials_str := ("")
    heating_demand_kwh_per_m2 := 45, gwp_kgco2e := 15, cost_sek := 75 }

/-! ## Generic helpers about the sort by a rational key -/

theorem keyLe_trans {α : Type} (f : α → ℚ) :
    ∀ a b c : α, (decide (f a ≤ f b) : Bool) → (decide (f b ≤ f c) : Bool) →
      (decide (f a ≤ f c) : Bool) := by
  intro a b c hab hbc
  simp only [decide_eq_true_eq] at *
  exact le_trans hab hbc

theorem keyLe_total {α : Type} (f : α → ℚ) :
    ∀ a b : α, decide (f a ≤ f b) || decide (f b ≤ f a) := by
  intro a b
  simpa using le_total (f a) (f b)

theorem mergeSort_key_sorted {α : Type} (f : α → ℚ) (l : List α) :
    (l.mergeSort (fun a b => decide (f a ≤ f b))).Pairwise (fun a b => f a ≤ f b) := by
  have h := List.sorted_mergeSort (keyLe_trans f) (keyLe_total f) l
  exact h.imp (fun hab => by simpa using hab)

theorem mergeSort_congr {α : Type} (l : List α) (f g : α → α → Bool)
    (h : ∀ a ∈ l, ∀ b ∈ l, f a b = g a b) :
    l.mergeSort f = l.mergeSort g := by
  have := @List.map_mergeSort _ _ f g id l (by simpa using h)
  simpa using this

theorem sortByMetric_head (f : Record → ℚ) (rs : List Record) (h : rs ≠ []) :
    ∃ a t, sortByMetric f rs = a :: t ∧ a ∈ rs ∧ ∀ r ∈ rs, f a ≤ f r := by
  have hperm : List.Perm (sortByMetric f rs) rs := List.mergeSort_perm rs _
  have hne : sortByMetric f rs ≠ [] := by
    intro hnil
    exact h ((hnil ▸ hperm : List.Perm [] rs).symm.eq_nil)
  obtain ⟨a, t, hat⟩ := List.exists_cons_of_ne_nil hne
  have hsorted := mergeSort_key_sorted f rs
  rw [show rs.mergeSort (fun a b => decide (f a ≤ f b)) = sortByMetric f rs from rfl,
    hat] at hsorted
  have hmin : ∀ b ∈ t, f a ≤ f b := (List.pairwise_cons.mp hsorted).1
  refine ⟨a, t, hat, ?_, ?_⟩
  · exact hperm.mem_iff.mp (hat ▸ List.mem_cons_self a t)
  · intro r hr
    have : r ∈ a :: t := hat ▸ hperm.mem_iff.mpr hr
    rcases List.mem_cons.mp this with rfl | hrt
    · exact le_refl _
    · exact hmin r hrt

/-! ## C1: zero weights signal the no-criteria error -/

/-- C1: for every record set, if all three ranking weights are zero,
the rank operation signals NoCriteriaSelectedError: it returns the
explicit error value, not a divide-by-zero score nor an empty ranked
list. -/
theorem c1_zero_weights_signal (rs : List Record) (g c h : ℚ)
    (hg : g = 0) (hc : c = 0) (hh : h = 0) :
    rank rs g c h = .error .NoCriteriaSelectedError := by
  subst hg; subst hc; subst hh
  simp [rank]

/-- Witness for C1 at a concrete record set and the zero weights. -/
theorem c1_zero_weights_signal_witness :
    rank [recA, recB, recC] 0 0 0 = .error .NoCriteriaSelectedError :=
  c1_zero_weights_signal [recA, recB, recC] 0 0 0 rfl rfl rfl

/-! ## C6: normalization yields a convex combination -/

/-- C6: for any three non-negative weights not all zero, the
normalized weights are each non-negative and sum to 1. -/
theorem c6_normalization (g c h : ℚ) (hg : 0 ≤ g) (hc : 0 ≤ c) (hh : 0 ≤ h)
    (hnz : ¬(g = 0 ∧ c = 0 ∧ h = 0)) :
    0 ≤ (normalizeWeights g c h).1 ∧ 0 ≤ (normalizeWeights g c h).2.1 ∧
      0 ≤ (normalizeWeights g c h).2.2 ∧
      (normalizeWeights g c h).1 + (normalizeWeights g c h).2.1 +
        (normalizeWeights g c h).2.2 = 1 := by
  have ht : g + c + h ≠ 0 := by
    intro h0
    exact hnz ⟨by linarith, by linarith, by linarith⟩
  have htpos : 0 < g + c + h := lt_of_le_of_ne (by linarith) (Ne.symm ht)
  refine ⟨div_nonneg hg (le_of_lt htpos), div_nonneg hc (le_of_lt htpos),
    div_nonneg hh (le_of_lt htpos), ?_⟩
  show g / (g + c + h) + c / (g + c + h) + h / (g + c + h) = 1
  rw [div_add_div_same, div_add_div_same, div_self ht]

/-- Witness for C6 at the default slider weights 0.4, 0.3, 0.3
(as rationals 2/5, 3/10, 3/10). -/
theorem c6_normalization_witness :
    0 ≤ (normalizeWeights (2/5) (3/10) (3/10)).1 ∧
      0 ≤ (normalizeWeights (2/5) (3/10) (3/10)).2.1 ∧
      0 ≤ (normalizeWeights (2/5) (3/10) (3/10)).2.2 ∧
      (normalizeWeights (2/5) (3/10) (3/10)).1 +
        (normalizeWeights (2/5) (3/10) (3/10)).2.1 +
        (normalizeWeights (2/5) (3/10) (3/10)).2.2 = 1 :=
  c6_normalization (2/5) (3/10) (3/10) (by norm_num) (by norm_num) (by norm_num)
    (by norm_num)

/-! ## C5: layer columns with sentinel substitution -/

theorem layerVal_eq_getD (xs : List String) (i : Nat) :
    layerVal xs i = xs.getD i ("None") := by
  unfold layerVal
  split
  · rename_i hlt
    simp [List.getD_eq_getElem?_getD, List.getElem?_eq_getElem hlt]
  · rename_i hge
    simp [List.getD_eq_getElem?_getD, List.getElem?_eq_none (Nat.le_of_not_lt hge)]

/-- C5: the derive step sets layer column i (cladding 0, membrane 1,
insulation 2) of each material category to the i-th element of the
material sequence when the sequence has more than i elements, and to
the sentinel otherwise; it is total, and a wall list of length 1 yields
that value as cladding with both other layers set to the sentinel. -/
theorem c5_layer_sentinel (r : Record) :
    (derive r).wall_cladding = r.wall_materials.getD 0 ("None") ∧
    (derive r).wall_membrane = r.wall_materials.getD 1 ("None") ∧
    (derive r).wall_insulation = r.wall_materials.getD 2 ("None") ∧
    (derive r).roof_cladding = r.roof_materials.getD 0 ("None") ∧
    (derive r).roof_membrane = r.roof_materials.getD 1 ("None") ∧
    (derive r).roof_insulation = r.roof_materials.getD 2 ("None") ∧
    (∀ m, r.wall_materials = [m] →
      (derive r).wall_cladding = m ∧ (derive r).wall_membrane = ("None") ∧
        (derive r).wall_insulation = ("None")) := by
  refine ⟨layerVal_eq_getD _ 0, layerVal_eq_getD _ 1, layerVal_eq_getD _ 2,
    layerVal_eq_getD _ 0, layerVal_eq_getD _ 1, layerVal_eq_getD _ 2, ?_⟩
  intro m hm
  show layerVal r.wall_materials 0 = m ∧ layerVal r.wall_materials 1 = ("None") ∧
    layerVal r.wall_materials 2 = ("None")
  rw [hm]
  exact ⟨rfl, rfl, rfl⟩

/-- Witness for C5 at a concrete record whose wall list has length 1. -/
theorem c5_layer_sentinel_witness :
    (derive { package := ("P"), wall_materials := [("brick")]
              roof_materials := [], wall_materials_str := ("brick")
              roof_materials_str := ("")
              heating_demand_kwh_per_m2 := 1, gwp_kgco2e := 2
              cost_sek := 3 }).wall_cladding = ("brick") ∧
    (derive { package := ("P"), wall_materials := [("brick")]
              roof_materials := [], wall_materials_str := ("brick")
              roof_materials_str := ("")
              heating_demand_kwh_per_m2 := 1, gwp_kgco2e := 2
              cost_sek := 3 }).wall_membrane = ("None") ∧
    (derive { package := ("P"), wall_materials := [("brick")]
              roof_materials := [], wall_materials_str := ("brick")
              roof_materials_str := ("")
              heating_demand_kwh_per_m2 := 1, gwp_kgco2e := 2
              cost_sek := 3 }).wall_insulation = ("None") :=
  (c5_layer_sentinel _).2.2.2.2.2.2 ("brick") rfl

/-! ## C4: a malformed list cell aborts the load -/

theorem loadRow_error_of_bad_cell (r : RawRecord)
    (h : literalEvalStrList r.wall_materials_cell = none ∨
      literalEvalStrList r.roof_materials_cell = none) :
    loadRow r = .error .MalformedRecordError := by
  unfold loadRow
  rcases h with hw | hr
  · rw [hw]
  · rw [hr]
    rcases literalEvalStrList r.wall_materials_cell with _ | w <;> rfl

/-- C4: if any row of the file has a list-valued cell that is not a
syntactically valid list literal, load_data fails with
MalformedRecordError; the error propagates and no record set (partial
or otherwise) is returned. -/
theorem c4_malformed_aborts (rows : List RawRecord)
    (hbad : ∃ r, r ∈ rows ∧ (literalEvalStrList r.wall_materials_cell = none ∨
      literalEvalStrList r.roof_materials_cell = none)) :
    load_data rows = .error .MalformedRecordError := by
  induction rows with
  | nil =>
    obtain ⟨r, hr, _⟩ := hbad
    exact absurd hr (List.not_mem_nil r)
  | cons r rest ih =>
    obtain ⟨x, hx, hxbad⟩ := hbad
    rcases List.mem_cons.mp hx with rfl | hxr
    · have hrow := loadRow_error_of_bad_cell x hxbad
      simp only [load_data, hrow]
    · have hrest := ih ⟨x, hxr, hxbad⟩
      rcases hload : loadRow r with e | rec
      · cases e
        simp only [load_data, hload]
      · simp only [load_data, hload, hrest]

/-- Witness for C4: a single row whose wall cell is not a list
literal. -/
theorem c4_malformed_aborts_witness :
    load_data [{ package := ("P1"), wall_materials_cell := ("not a list")
                 roof_materials_cell := ("[]")
                 heating_demand_kwh_per_m2 := 1, gwp_kgco2e := 2
                 cost_sek := 3 }] = .error .MalformedRecordError :=
  c4_malformed_aborts _ ⟨_, List.mem_singleton.mpr rfl, Or.inl rfl⟩

/-! ## C8: the KPI summary block -/

/-- C8: the KPI summary block signals EmptyDatasetError on zero
records, and on a non-empty record set it succeeds with each best
package being a record of the set attaining the minimal value of its
metric. -/
theorem c8_summary_block (rs : List Record) :
    (rs = [] → summaryStats rs = .error .EmptyDatasetError) ∧
    (rs ≠ [] → ∃ s, summaryStats rs = .ok s ∧
      s.best_gwp_pkg ∈ rs ∧ (∀ r ∈ rs, s.best_gwp_pkg.gwp_kgco2e ≤ r.gwp_kgco2e) ∧
      s.best_cost_pkg ∈ rs ∧ (∀ r ∈ rs, s.best_cost_pkg.cost_sek ≤ r.cost_sek) ∧
      s.best_heat_pkg ∈ rs ∧
      (∀ r ∈ rs,
        s.best_heat_pkg.heating_demand_kwh_per_m2 ≤ r.heating_demand_kwh_per_m2)) := by
  constructor
  · intro h
    subst h
    rfl
  · intro hne
    obtain ⟨ah, th, hhs, ahm, ahmin⟩ :=
      sortByMetric_head (fun x => x.heating_demand_kwh_per_m2) rs hne
    obtain ⟨ag, tg, hgs, agm, agmin⟩ := sortByMetric_head (fun x => x.gwp_kgco2e) rs hne
    obtain ⟨ac, tc, hcs, acm, acmin⟩ := sortByMetric_head (fun x => x.cost_sek) rs hne
    obtain ⟨r, rest, rfl⟩ := List.exists_cons_of_ne_nil hne
    refine ⟨_, rfl, ?_, ?_, ?_, ?_, ?_, ?_⟩ <;>
      simp only [hgs, hcs, hhs, List.headD_cons]
    · exact agm
    · exact agmin
    · exact acm
    · exact acmin
    · exact ahm
    · exact ahmin

/-- Witness for C8: the empty record set errors and a one-record set
succeeds with that record as every best package. -/
theorem c8_summary_block_witness :
    summaryStats [] = .error .EmptyDatasetError ∧
    (∃ s, summaryStats [recA] = .ok s ∧
      s.best_gwp_pkg ∈ [recA] ∧
      (∀ r ∈ [recA], s.best_gwp_pkg.gwp_kgco2e ≤ r.gwp_kgco2e) ∧
      s.best_cost_pkg ∈ [recA] ∧ (∀ r ∈ [recA], s.best_cost_pkg.cost_sek ≤ r.cost_sek) ∧
      s.best_heat_pkg ∈ [recA] ∧
      (∀ r ∈ [recA],
        s.best_heat_pkg.heating_demand_kwh_per_m2 ≤ r.heating_demand_kwh_per_m2)) :=
  ⟨(c8_summary_block []).1 rfl, (c8_summary_block [recA]).2 (List.cons_ne_nil recA [])⟩

/-! ## Fractional-rank lemmas -/

theorem countP_le_split (vs : List ℚ) (a : ℚ) :
    vs.countP (fun u => decide (u ≤ a)) =
      vs.countP (fun u => decide (u < a)) + vs.countP (fun u => decide (u = a)) := by
  induction vs with
  | nil => rfl
  | cons v t ih =>
    simp only [List.countP_cons, ih]
    rcases lt_trichotomy v a with h | h | h
    · simp only [decide_eq_true_eq, if_pos (le_of_lt h), if_pos h,
        if_neg (ne_of_lt h)]
      omega
    · subst h
      simp only [decide_eq_true_eq, le_refl, lt_irrefl, if_true, if_false]
      simp
      omega
    · simp only [decide_eq_true_eq, if_neg (not_le.mpr h),
        if_neg (lt_asymm h), if_neg (ne_of_gt h)]
      omega

theorem frank_lt_frank (vs : List ℚ) (a b : ℚ) (ha : a ∈ vs) (hb : b ∈ vs)
    (hab : a < b) : frank vs a < frank vs b := by
  unfold frank
  have h1 : vs.countP (fun u => decide (u ≤ a)) ≤ vs.countP (fun u => decide (u < b)) :=
    List.countP_mono_left (fun x _ hxa => by
      simp only [decide_eq_true_eq] at *
      exact lt_of_le_of_lt hxa hab)
  rw [countP_le_split] at h1
  have hea : 0 < vs.countP (fun u => decide (u = a)) :=
    List.countP_pos_iff.mpr ⟨a, ha, by simp⟩
  have heb : 0 < vs.countP (fun u => decide (u = b)) :=
    List.countP_pos_iff.mpr ⟨b, hb, by simp⟩
  have h1q : (vs.countP (fun u => decide (u < a)) : ℚ) +
      (vs.countP (fun u => decide (u = a)) : ℚ) ≤
      (vs.countP (fun u => decide (u < b)) : ℚ) := by
    exact_mod_cast h1
  have heaq : (1 : ℚ) ≤ (vs.countP (fun u => decide (u = a)) : ℚ) := by
    exact_mod_cast hea
  have hebq : (1 : ℚ) ≤ (vs.countP (fun u => decide (u = b)) : ℚ) := by
    exact_mod_cast heb
  linarith

theorem frank_le_iff (vs : List ℚ) (a b : ℚ) (ha : a ∈ vs) (hb : b ∈ vs) :
    frank vs a ≤ frank vs b ↔ a ≤ b := by
  constructor
  · intro h
    by_contra hab
    push_neg at hab
    exact absurd h (not_le.mpr (frank_lt_frank vs b a hb ha hab))
  · intro h
    rcases eq_or_lt_of_le h with rfl | hlt
    · exact le_refl _
    · exact le_of_lt (frank_lt_frank vs a b ha hb hlt)

/-! ## C3: ranking with gwp weight 1 is the ascending gwp sort -/

theorem score_gwp_only (rs : List Record) (r : Record) :
    score rs (1 / (1 + 0 + 0)) (0 / (1 + 0 + 0)) (0 / (1 + 0 + 0)) r =
      frank (rs.map (fun x => x.gwp_kgco2e)) r.gwp_kgco2e := by
  unfold score
  norm_num

theorem rank_gwp_only (rs : List Record) :
    rank rs 1 0 0 = .ok (sortByMetric (fun r => r.gwp_kgco2e) rs) := by
  have hs : (1 : ℚ) + 0 + 0 ≠ 0 := by norm_num
  simp only [rank, if_neg hs]
  congr 1
  unfold sortByMetric
  apply mergeSort_congr
  intro a ha b hb
  rw [score_gwp_only rs a, score_gwp_only rs b]
  have hma : a.gwp_kgco2e ∈ rs.map (fun x => x.gwp_kgco2e) :=
    List.mem_map_of_mem _ ha
  have hmb : b.gwp_kgco2e ∈ rs.map (fun x => x.gwp_kgco2e) :=
    List.mem_map_of_mem _ hb
  simp only [decide_eq_decide]
  exact frank_le_iff _ _ _ hma hmb

/-- C3: with weights (1, 0, 0) the rank operation returns exactly the
ascending stable sort of the records by gwp; in particular on the
three example records A (gwp 10), B (gwp 20), C (gwp 15) the resulting
order is A, C, B. -/
theorem c3_gwp_monotonicity :
    (∀ rs : List Record,
      rank rs 1 0 0 = .ok (sortByMetric (fun r => r.gwp_kgco2e) rs)) ∧
    rank [recA, recB, recC] 1 0 0 = .ok [recA, recC, recB] := by
  refine ⟨rank_gwp_only, ?_⟩
  rw [rank_gwp_only]
  have : sortByMetric (fun r => r.gwp_kgco2e) [recA, recB, recC] =
      [recA, recC, recB] := by
    unfold sortByMetric
    simp [List.mergeSort, List.merge, recA, recB, recC]
    norm_num [List.merge]
  rw [this]

/-! ## The fractional rank equals the average of the tied positions -/

theorem posWeightedCount_append (v : ℚ) (l1 l2 : List ℚ) (k : Nat) :
    posWeightedCount v (l1 ++ l2) k =
      posWeightedCount v l1 k + posWeightedCount v l2 (k + l1.length) := by
  induction l1 generalizing k with
  | nil => simp [posWeightedCount]
  | cons a t ih =>
    rw [List.cons_append, posWeightedCount, posWeightedCount, ih (k + 1),
      List.length_cons, show k + (t.length + 1) = k + 1 + t.length from by omega]
    ring

theorem posWeightedCount_of_not_mem (v : ℚ) (l : List ℚ) (k : Nat) (h : v ∉ l) :
    posWeightedCount v l k = 0 := by
  induction l generalizing k with
  | nil => rfl
  | cons a t ih =>
    have hav : a ≠ v := fun hav => h (hav ▸ List.mem_cons_self a t)
    simp only [posWeightedCount, if_neg hav,
      ih (k + 1) (fun hv => h (List.mem_cons_of_mem a hv))]
    ring

theorem posWeightedCount_replicate (v : ℚ) (m k : Nat) :
    posWeightedCount v (List.replicate m v) k =
      (m : ℚ) * k + (m : ℚ) * ((m : ℚ) - 1) / 2 := by
  induction m generalizing k with
  | zero => simp [posWeightedCount]
  | succ n ih =>
    simp only [List.replicate_succ, posWeightedCount, if_pos rfl, ih (k + 1)]
    push_cast
    ring

theorem sorted_decomp (v : ℚ) (l : List ℚ)
    (hl : l.Pairwise (fun a b => a ≤ b)) :
    l = l.filter (fun u => decide (u < v)) ++ l.filter (fun u => decide (u = v)) ++
      l.filter (fun u => decide (v < u)) := by
  induction l with
  | nil => rfl
  | cons a t ih =>
    obtain ⟨hat, htp⟩ := List.pairwise_cons.mp hl
    have IH := ih htp
    rcases lt_trichotomy a v with h | h | h
    · have e1 : (a :: t).filter (fun u => decide (u < v)) =
          a :: t.filter (fun u => decide (u < v)) := by
        simp [List.filter_cons, h]
      have e2 : (a :: t).filter (fun u => decide (u = v)) =
          t.filter (fun u => decide (u = v)) := by
        simp [List.filter_cons, ne_of_lt h]
      have e3 : (a :: t).filter (fun u => decide (v < u)) =
          t.filter (fun u => decide (v < u)) := by
        simp [List.filter_cons, lt_asymm h]
      rw [e1, e2, e3, List.cons_append, List.cons_append, ← IH]
    · subst h
      have h1 : t.filter (fun u => decide (u < a)) = [] :=
        List.filter_eq_nil_iff.mpr (fun u hu => by
          simp only [decide_eq_true_eq]
          exact not_lt.mpr (hat u hu))
      have e1 : (a :: t).filter (fun u => decide (u < a)) = [] := by
        simp [List.filter_cons, lt_irrefl a, h1]
      have e2 : (a :: t).filter (fun u => decide (u = a)) =
          a :: t.filter (fun u => decide (u = a)) := by
        simp [List.filter_cons]
      have e3 : (a :: t).filter (fun u => decide (a < u)) =
          t.filter (fun u => decide (a < u)) := by
        simp [List.filter_cons, lt_irrefl a]
      rw [e1, e2, e3, List.nil_append, List.cons_append]
      rw [h1] at IH
      rw [List.nil_append] at IH
      rw [← IH]
    · have h1 : t.filter (fun u => decide (u < v)) = [] :=
        List.filter_eq_nil_iff.mpr (fun u hu => by
          simp only [decide_eq_true_eq]
          exact not_lt.mpr (le_trans (le_of_lt h) (hat u hu)))
      have h2 : t.filter (fun u => decide (u = v)) = [] :=
        List.filter_eq_nil_iff.mpr (fun u hu => by
          simp only [decide_eq_true_eq]
          exact ne_of_gt (lt_of_lt_of_le h (hat u hu)))
      have e1 : (a :: t).filter (fun u => decide (u < v)) = [] := by
        simp [List.filter_cons, lt_asymm h, h1]
      have e2 : (a :: t).filter (fun u => decide (u = v)) = [] := by
        simp [List.filter_cons, ne_of_gt h, h2]
      have e3 : (a :: t).filter (fun u => decide (v < u)) =
          a :: t.filter (fun u => decide (v < u)) := by
        simp [List.filter_cons, h]
      rw [e1, e2, e3, List.nil_append, List.nil_append]
      rw [h1, h2] at IH
      simp only [List.nil_append] at IH
      rw [← IH]

theorem frank_eq_specFrank (vs : List ℚ) (v : ℚ) (hv : v ∈ vs) :
    frank vs v = specFrank vs v := by
  set s := vs.mergeSort (fun a b => decide (a ≤ b)) with hs
  have hsort : s.Pairwise (fun a b => a ≤ b) := by
    have := mergeSort_key_sorted (fun x : ℚ => x) vs
    exact this
  have hperm : List.Perm s vs := List.mergeSort_perm vs _
  have hdec := sorted_decomp v s hsort
  set F1 := s.filter (fun u => decide (u < v)) with hF1
  set F2 := s.filter (fun u => decide (u = v)) with hF2
  set F3 := s.filter (fun u => decide (v < u)) with hF3
  have hF2rep : F2 = List.replicate F2.length v := by
    refine List.eq_replicate_of_mem (fun b hb => ?_)
    have := List.mem_filter.mp hb
    simpa using this.2
  have hvF1 : v ∉ F1 := fun hmem => by
    have := List.mem_filter.mp hmem
    simp at this
  have hvF3 : v ∉ F3 := fun hmem => by
    have := List.mem_filter.mp hmem
    simp at this
  have hlen1 : F1.length = vs.countP (fun u => decide (u < v)) := by
    rw [hF1, ← List.countP_eq_length_filter]
    exact hperm.countP_eq _
  have hlen2 : F2.length = vs.countP (fun u => decide (u = v)) := by
    rw [hF2, ← List.countP_eq_length_filter]
    exact hperm.countP_eq _
  have hcount : s.countP (fun u => decide (u = v)) = F2.length := by
    rw [hF2, List.countP_eq_length_filter]
  have hpwc : posWeightedCount v s 1 =
      (F2.length : ℚ) * (1 + F1.length) +
        (F2.length : ℚ) * ((F2.length : ℚ) - 1) / 2 := by
    conv_lhs => rw [hdec]
    rw [List.append_assoc, posWeightedCount_append,
      posWeightedCount_of_not_mem v F1 1 hvF1, posWeightedCount_append,
      posWeightedCount_of_not_mem v F3 _ hvF3]
    conv_lhs => rw [hF2rep]
    rw [posWeightedCount_replicate]
    push_cast
    ring
  have hm : 0 < vs.countP (fun u => decide (u = v)) :=
    List.countP_pos_iff.mpr ⟨v, hv, by simp⟩
  have hmq : (1 : ℚ) ≤ (vs.countP (fun u => decide (u = v)) : ℚ) := by
    exact_mod_cast hm
  have hspec : specFrank vs v =
      posWeightedCount v s 1 / (s.countP (fun u => decide (u = v)) : ℚ) := rfl
  rw [hspec, hpwc, hcount]
  unfold frank
  rw [hlen1, hlen2]
  have hne : (vs.countP (fun u => decide (u = v)) : ℚ) ≠ 0 := by linarith
  field_simp
  ring

/-! ## C2: the composite score and the sorted output -/

theorem score_eq_specScore (rs : List Record) (g c h : ℚ) (r : Record)
    (hr : r ∈ rs) :
    score rs (g / (g + c + h)) (c / (g + c + h)) (h / (g + c + h)) r =
      specScore rs g c h r := by
  unfold score specScore
  rw [frank_eq_specFrank _ _ (List.mem_map_of_mem _ hr),
    frank_eq_specFrank _ _ (List.mem_map_of_mem _ hr),
    frank_eq_specFrank _ _ (List.mem_map_of_mem _ hr)]
  ring

/-- C2: for a non-negative weight triple with nonzero sum, ranking
succeeds; the computed per-record score equals the sum over the three
metrics of (normalized weight × fractional rank of the record on that
metric, 1-based, ascending, ties averaged); and the output is a
permutation of the records sorted ascending by that composite score,
with the top-N view taking its first n rows. -/
theorem c2_composite_score (rs : List Record) (g c h : ℚ) (n : Nat)
    (hg : 0 ≤ g) (hc : 0 ≤ c) (hh : 0 ≤ h) (hs : g + c + h ≠ 0) :
    ∃ out, rank rs g c h = .ok out ∧
      rankTop rs g c h n = .ok (out.take n) ∧
      List.Perm out rs ∧
      out.Pairwise (fun a b => specScore rs g c h a ≤ specScore rs g c h b) ∧
      (∀ r ∈ rs,
        score rs (g / (g + c + h)) (c / (g + c + h)) (h / (g + c + h)) r =
          specScore rs g c h r) := by
  have hrank : rank rs g c h = .ok (rs.mergeSort (fun a b =>
      decide (score rs (g / (g + c + h)) (c / (g + c + h)) (h / (g + c + h)) a ≤
        score rs (g / (g + c + h)) (c / (g + c + h)) (h / (g + c + h)) b))) := by
    simp only [rank, if_neg hs]
  refine ⟨_, hrank, ?_, ?_, ?_, ?_⟩
  · unfold rankTop
    rw [hrank]
    rfl
  · exact List.mergeSort_perm rs _
  · have hp := mergeSort_key_sorted
      (score rs (g / (g + c + h)) (c / (g + c + h)) (h / (g + c + h))) rs
    refine hp.imp_of_mem ?_
    intro a b ha hb hab
    have ha2 : a ∈ rs := List.mem_mergeSort.mp ha
    have hb2 : b ∈ rs := List.mem_mergeSort.mp hb
    rw [← score_eq_specScore rs g c h a ha2, ← score_eq_specScore rs g c h b hb2]
    exact hab
  · intro r hr
    exact score_eq_specScore rs g c h r hr

/-- Witness for C2 at the three example records, weights (2, 1, 1) and
top-2 selection. -/
theorem c2_composite_score_witness :
    ∃ out, rank [recA, recB, recC] 2 1 1 = .ok out ∧
      rankTop [recA, recB, recC] 2 1 1 2 = .ok (out.take 2) ∧
      List.Perm out [recA, recB, recC] ∧
      out.Pairwise (fun a b => specScore [recA, recB, recC] 2 1 1 a ≤
        specScore [recA, recB, recC] 2 1 1 b) ∧
      (∀ r ∈ [recA, recB, recC],
        score [recA, recB, recC] (2 / (2 + 1 + 1)) (1 / (2 + 1 + 1))
            (1 / (2 + 1 + 1)) r = specScore [recA, recB, recC] 2 1 1 r) :=
  c2_composite_score [recA, recB, recC] 2 1 1 2 (by norm_num) (by norm_num)
    (by norm_num) (by norm_num)

/-! ## C9 and C10: the ordinal tick encoding -/

theorem mem_uniqueFirst (a : String) :
    ∀ (l : List String), (a ∈ uniqueFirst l ↔ a ∈ l)
  | [] => by rw [uniqueFirst]
  | x :: t => by
    rw [uniqueFirst]
    by_cases hax : a = x
    · subst hax
      simp
    · simp only [List.mem_cons, hax, false_or]
      rw [mem_uniqueFirst a (t.filter (fun y => decide (y ≠ x)))]
      simp [List.mem_filter, hax]
termination_by l => l.length
decreasing_by
  simp only [List.length_cons]
  exact Nat.lt_succ_of_le (List.length_filter_le _ _)

theorem nodup_uniqueFirst : ∀ (l : List String), (uniqueFirst l).Nodup
  | [] => by rw [uniqueFirst]; exact List.nodup_nil
  | x :: t => by
    rw [uniqueFirst]
    refine List.nodup_cons.mpr ⟨?_, nodup_uniqueFirst (t.filter (fun y => decide (y ≠ x)))⟩
    intro hmem
    have h1 := (mem_uniqueFirst x _).mp hmem
    have h2 := (List.mem_filter.mp h1).2
    simp at h2
termination_by l => l.length
decreasing_by
  simp only [List.length_cons]
  exact Nat.lt_succ_of_le (List.length_filter_le _ _)

theorem filter_take_indexOf (p : String → Bool) (v : String) (hp : p v = true) :
    ∀ (t : List String), v ∈ t →
      (t.filter p).take ((t.filter p).indexOf v) =
        (t.take (t.indexOf v)).filter p := by
  intro t
  induction t with
  | nil => intro hv; exact absurd hv (List.not_mem_nil v)
  | cons a t ih =>
    intro hv
    by_cases hav : a = v
    · subst hav
      rw [List.filter_cons_of_pos hp, List.indexOf_cons_self,
        List.indexOf_cons_self]
      rfl
    · have hv2 : v ∈ t := List.mem_of_ne_of_mem (fun h => hav h.symm) hv
      by_cases hpa : p a = true
      · rw [List.filter_cons_of_pos hpa, List.indexOf_cons_ne _ hav,
          List.indexOf_cons_ne _ hav, List.take_succ_cons, List.take_succ_cons,
          List.filter_cons_of_pos hpa, ih hv2]
      · rw [List.filter_cons_of_neg (by simpa using hpa),
          List.indexOf_cons_ne _ hav, List.take_succ_cons,
          List.filter_cons_of_neg (by simpa using hpa), ih hv2]

theorem ordinal_take : ∀ (xs : List String) (v : String), v ∈ xs →
    ordinalOf xs v = (uniqueFirst (xs.take (xs.indexOf v))).length
  | [], v, hv => absurd hv (List.not_mem_nil v)
  | x :: t, v, hv => by
    by_cases hvx : v = x
    · subst hvx
      unfold ordinalOf
      rw [uniqueFirst, List.indexOf_cons_self, List.indexOf_cons_self,
        List.take_zero, uniqueFirst]
      rfl
    · have hv2 : v ∈ t := List.mem_of_ne_of_mem hvx hv
      have hq : (fun y => decide (y ≠ x)) v = true := by simp [hvx]
      have hvf : v ∈ t.filter (fun y => decide (y ≠ x)) :=
        List.mem_filter.mpr ⟨hv2, hq⟩
      have hrec := ordinal_take (t.filter (fun y => decide (y ≠ x))) v hvf
      unfold ordinalOf at hrec
      unfold ordinalOf
      rw [uniqueFirst, List.indexOf_cons_ne _ (fun h => hvx h.symm), hrec,
        List.indexOf_cons_ne _ (fun h => hvx h.symm), List.take_succ_cons,
        uniqueFirst, List.length_cons,
        filter_take_indexOf (fun y => decide (y ≠ x)) v hq t hv2]
termination_by xs => xs.length
decreasing_by
  simp only [List.length_cons]
  exact Nat.lt_succ_of_le (List.length_filter_le _ _)

/-- C9: the ordinal encoding of a categorical column assigns to each
value the number of distinct values seen strictly before its first
occurrence (so the first distinct value gets 0, the next new one 1,
and so on), and the encoded (dummy) column has, at every row, the
ordinal of the value found at that row. -/
theorem c9_ordinal_encoding (xs : List String) :
    (encodeColumn xs).length = xs.length ∧
    (∀ i (hi : i < xs.length) (hi2 : i < (encodeColumn xs).length),
      (encodeColumn xs).get ⟨i, hi2⟩ = ordinalOf xs (xs.get ⟨i, hi⟩)) ∧
    (∀ v ∈ xs, ordinalOf xs v = (uniqueFirst (xs.take (xs.indexOf v))).length) := by
  refine ⟨List.length_map xs _, ?_, ordinal_take xs⟩
  intro i hi hi2
  simp [encodeColumn]

/-- Witness for C9 at a concrete four-row column with a repeated
value. -/
theorem c9_ordinal_encoding_witness :
    (encodeColumn [("b"), ("a"), ("b"), ("c")]).length =
      ([("b"), ("a"), ("b"), ("c")] : List String).length ∧
    (∀ i (hi : i < ([("b"), ("a"), ("b"), ("c")] : List String).length)
      (hi2 : i < (encodeColumn [("b"), ("a"), ("b"), ("c")]).length),
      (encodeColumn [("b"), ("a"), ("b"), ("c")]).get ⟨i, hi2⟩ =
        ordinalOf [("b"), ("a"), ("b"), ("c")]
          (([("b"), ("a"), ("b"), ("c")] : List String).get ⟨i, hi⟩)) ∧
    (∀ v ∈ ([("b"), ("a"), ("b"), ("c")] : List String),
      ordinalOf [("b"), ("a"), ("b"), ("c")] v =
        (uniqueFirst (([("b"), ("a"), ("b"), ("c")] : List String).take
          (([("b"), ("a"), ("b"), ("c")] : List String).indexOf v))).length) :=
  c9_ordinal_encoding [("b"), ("a"), ("b"), ("c")]

/-- C10: for a categorical column with k distinct observed values the
ordinal encoding is a bijection onto the set of ordinals 0..k-1: the
tick texts are exactly the distinct values without repetition, the
tick values are exactly the range 0..k-1, every observed value has an
ordinal below k, distinct values receive distinct ordinals, and the
i-th tick text is paired with ordinal i. -/
theorem c10_tick_bijection (xs : List String) :
    (ticktext xs).Nodup ∧
    tickvals xs = List.range (ticktext xs).length ∧
    (∀ v ∈ xs, v ∈ ticktext xs) ∧
    (∀ v ∈ ticktext xs, v ∈ xs) ∧
    (∀ v ∈ xs, ordinalOf xs v < (ticktext xs).length) ∧
    (∀ v ∈ xs, ∀ w ∈ xs, ordinalOf xs v = ordinalOf xs w → v = w) ∧
    (∀ i (hi : i < (ticktext xs).length),
      ordinalOf xs ((ticktext xs).get ⟨i, hi⟩) = i) := by
  refine ⟨nodup_uniqueFirst xs, rfl, ?_, ?_, ?_, ?_, ?_⟩
  · exact fun v hv => (mem_uniqueFirst v xs).mpr hv
  · exact fun v hv => (mem_uniqueFirst v xs).mp hv
  · intro v hv
    exact List.indexOf_lt_length.mpr ((mem_uniqueFirst v xs).mpr hv)
  · intro v hv w hw he
    have h1 := List.getElem?_indexOf ((mem_uniqueFirst v xs).mpr hv)
    have h2 := List.getElem?_indexOf ((mem_uniqueFirst w xs).mpr hw)
    have he2 : List.indexOf v (uniqueFirst xs) = List.indexOf w (uniqueFirst xs) := he
    rw [he2, h2] at h1
    exact (Option.some.inj h1).symm
  · intro i hi
    unfold ordinalOf
    rw [List.get_eq_getElem]
    exact List.indexOf_getElem (nodup_uniqueFirst xs) i hi

/-- Witness for C10 at the same concrete column. -/
theorem c10_tick_bijection_witness :
    (ticktext [("b"), ("a"), ("b"), ("c")]).Nodup ∧
    tickvals [("b"), ("a"), ("b"), ("c")] =
      List.range (ticktext [("b"), ("a"), ("b"), ("c")]).length ∧
    (∀ v ∈ ([("b"), ("a"), ("b"), ("c")] : List String),
      v ∈ ticktext [("b"), ("a"), ("b"), ("c")]) ∧
    (∀ v ∈ ticktext [("b"), ("a"), ("b"), ("c")],
      v ∈ ([("b"), ("a"), ("b"), ("c")] : List String)) ∧
    (∀ v ∈ ([("b"), ("a"), ("b"), ("c")] : List String),
      ordinalOf [("b"), ("a"), ("b"), ("c")] v <
        (ticktext [("b"), ("a"), ("b"), ("c")]).length) ∧
    (∀ v ∈ ([("b"), ("a"), ("b"), ("c")] : List String),
      ∀ w ∈ ([("b"), ("a"), ("b"), ("c")] : List String),
      ordinalOf [("b"), ("a"), ("b"), ("c")] v =
        ordinalOf [("b"), ("a"), ("b"), ("c")] w → v = w) ∧
    (∀ i (hi : i < (ticktext [("b"), ("a"), ("b"), ("c")]).length),
      ordinalOf [("b"), ("a"), ("b"), ("c")]
        ((ticktext [("b"), ("a"), ("b"), ("c")]).get ⟨i, hi⟩) = i) :=
  c10_tick_bijection [("b"), ("a"), ("b"), ("c")]

/-! ## C7: parse of print round trip for the list cells -/
theorem unescapeChar_bslE : unescapeChar bsl = [bsl] := by decide

theorem unescapeChar_selfE (q : Char) (hq : q = sq ∨ q = dq) : unescapeChar q = [q] := by
  rcases hq with h | h <;> subst h <;> decide

theorem parseStrBody_closing (q : Char) (rest : List Char) :
    parseStrBody q (q :: rest) = some ([], rest) := by
  rw [parseStrBody.eq_def]
  simp

theorem parseStrBody_esc (q e : Char) (hq : q ≠ bsl) (rest : List Char) :
    parseStrBody q (bsl :: e :: rest) =
      (parseStrBody q rest).map (fun p => (unescapeChar e ++ p.1, p.2)) := by
  rw [parseStrBody.eq_def]
  simp [Ne.symm hq]

theorem parseStrBody_raw (q c : Char) (hcq : c ≠ q) (hcb : c ≠ bsl)
    (hcn : c ≠ nlc) (rest : List Char) :
    parseStrBody q (c :: rest) =
      (parseStrBody q rest).map (fun p => (c :: p.1, p.2)) := by
  rw [parseStrBody.eq_def]
  simp [hcq, hcb, hcn]

theorem parseStrBody_escape (q : Char) (hq : q = sq ∨ q = dq) :
    ∀ (s rest : List Char),
      parseStrBody q ((s.map (escapeChar q)).flatten ++ (q :: rest)) = some (s, rest)
  | [], rest => by
    simp only [List.map_nil, List.flatten_nil, List.nil_append]
    exact parseStrBody_closing q rest
  | c :: s, rest => by
    have hqb : q ≠ bsl := by rcases hq with h | h <;> subst h <;> decide
    rw [List.map_cons, List.flatten_cons, List.append_assoc]
    by_cases hc1 : c = bsl
    · subst hc1
      rw [show escapeChar q bsl = [bsl, bsl] from by rw [escapeChar, if_pos rfl]]
      show parseStrBody q
        (bsl :: bsl :: ((s.map (escapeChar q)).flatten ++ (q :: rest))) = _
      rw [parseStrBody_esc q bsl hqb, parseStrBody_escape q hq s rest]
      simp [unescapeChar_bslE]
    · by_cases hc2 : c = q
      · subst hc2
        rw [show escapeChar c c = [bsl, c] from by
          rw [escapeChar, if_neg hc1, if_pos rfl]]
        show parseStrBody c
          (bsl :: c :: ((s.map (escapeChar c)).flatten ++ (c :: rest))) = _
        rw [parseStrBody_esc c c hqb, parseStrBody_escape c hq s rest]
        simp [unescapeChar_selfE c hq]
      · by_cases hc3 : c = nlc
        · subst hc3
          rw [show escapeChar q nlc = [bsl, 'n'] from by
            rw [escapeChar, if_neg hc1, if_neg hc2, if_pos rfl]]
          show parseStrBody q
            (bsl :: 'n' :: ((s.map (escapeChar q)).flatten ++ (q :: rest))) = _
          rw [parseStrBody_esc q 'n' hqb, parseStrBody_escape q hq s rest]
          have hn : unescapeChar 'n' = [nlc] := by decide
          simp [hn]
        · by_cases hc4 : c = crc
          · subst hc4
            rw [show escapeChar q crc = [bsl, 'r'] from by
              rw [escapeChar, if_neg hc1, if_neg hc2, if_neg hc3, if_pos rfl]]
            show parseStrBody q
              (bsl :: 'r' :: ((s.map (escapeChar q)).flatten ++ (q :: rest))) = _
            rw [parseStrBody_esc q 'r' hqb, parseStrBody_escape q hq s rest]
            have hr : unescapeChar 'r' = [crc] := by decide
            simp [hr]
          · by_cases hc5 : c = tabc
            · subst hc5
              rw [show escapeChar q tabc = [bsl, 't'] from by
                rw [escapeChar, if_neg hc1, if_neg hc2, if_neg hc3, if_neg hc4,
                  if_pos rfl]]
              show parseStrBody q
                (bsl :: 't' :: ((s.map (escapeChar q)).flatten ++ (q :: rest))) = _
              rw [parseStrBody_esc q 't' hqb, parseStrBody_escape q hq s rest]
              have ht : unescapeChar 't' = [tabc] := by decide
              simp [ht]
            · rw [show escapeChar q c = [c] from by
                rw [escapeChar, if_neg hc1, if_neg hc2, if_neg hc3, if_neg hc4,
                  if_neg hc5]]
              show parseStrBody q
                (c :: ((s.map (escapeChar q)).flatten ++ (q :: rest))) = _
              rw [parseStrBody_raw q c hc2 hc1 hc3, parseStrBody_escape q hq s rest]
              rfl

theorem chooseQuote_cases (s : List Char) :
    chooseQuote s = sq ∨ chooseQuote s = dq := by
  unfold chooseQuote
  split
  · exact Or.inr rfl
  · exact Or.inl rfl

theorem parseStrLit_cons_sq (rest : List Char) :
    parseStrLit (sq :: rest) = parseStrBody sq rest := by
  rw [parseStrLit.eq_def]
  simp

theorem parseStrLit_cons_dq (rest : List Char) :
    parseStrLit (dq :: rest) = parseStrBody dq rest := by
  rw [parseStrLit.eq_def]
  simp [show ¬ dq = sq from by decide]

theorem parseStrLit_repr (s rest : List Char) :
    parseStrLit (reprStrChars s ++ rest) = some (s, rest) := by
  rcases chooseQuote_cases s with h | h
  · rw [reprStrChars, h, List.cons_append, List.cons_append, List.append_assoc,
      List.singleton_append, parseStrLit_cons_sq]
    exact parseStrBody_escape sq (Or.inl rfl) s rest
  · rw [reprStrChars, h, List.cons_append, List.cons_append, List.append_assoc,
      List.singleton_append, parseStrLit_cons_dq]
    exact parseStrBody_escape dq (Or.inr rfl) s rest

theorem skipSp_cons_of_ne (c : Char) (l : List Char) (hc : ¬ c = ' ') :
    skipSp (c :: l) = c :: l := by
  unfold skipSp
  rw [List.dropWhile_cons]
  simp [hc]

theorem quote_ne_space (s : List Char) : ¬ chooseQuote s = ' ' := by
  rcases chooseQuote_cases s with h | h <;> rw [h] <;> decide

theorem quote_ne_rbracket (s : List Char) : ¬ chooseQuote s = ']' := by
  rcases chooseQuote_cases s with h | h <;> rw [h] <;> decide

theorem reprStrChars_cons_form (x tail : List Char) :
    reprStrChars x ++ tail =
      chooseQuote x ::
        (((x.map (escapeChar (chooseQuote x))).flatten ++ [chooseQuote x]) ++ tail) := by
  rw [reprStrChars, List.cons_append, List.cons_append]

theorem skipSp_reprStr (x tail : List Char) :
    skipSp (reprStrChars x ++ tail) = reprStrChars x ++ tail := by
  rw [reprStrChars_cons_form]
  exact skipSp_cons_of_ne _ _ (quote_ne_space x)

theorem length_sepItems (xs : List (List Char)) :
    xs.length ≤ (sepItems xs).length := by
  induction xs with
  | nil => simp [sepItems]
  | cons x t ih =>
    rw [sepItems, List.length_append]
    simp only [List.length_cons]
    omega

theorem parseTail_succ (f : Nat) (l : List Char) :
    parseTail (f + 1) l = match skipSp l with
      | [] => none
      | c :: rest =>
        if c = ']' then some ([], rest)
        else if c = ',' then
          match skipSp rest with
          | [] => none
          | c2 :: rest2 =>
            if c2 = ']' then some ([], rest2)
            else match parseStrLit (c2 :: rest2) with
              | some (s, rest3) => (parseTail f rest3).map (fun p => (s :: p.1, p.2))
              | none => none
        else none := rfl

theorem parseTail_sep : ∀ (xs : List (List Char)) (fuel : Nat) (rest : List Char),
    xs.length + 1 ≤ fuel →
    parseTail fuel (sepItems xs ++ (']' :: rest)) = some (xs, rest)
  | [], fuel, rest, hf => by
    match fuel, hf with
    | f + 1, _ =>
      rw [show sepItems [] ++ (']' :: rest) = ']' :: rest from rfl]
      rw [parseTail_succ, skipSp_cons_of_ne ']' rest (by decide)]
      simp
  | x :: t, fuel, rest, hf => by
    match fuel, hf with
    | f + 1, hf =>
      have hf2 : t.length + 1 ≤ f := by
        simp only [List.length_cons] at hf
        omega
      have hshape : sepItems (x :: t) ++ (']' :: rest) =
          ',' :: (' ' :: (reprStrChars x ++ (sepItems t ++ (']' :: rest)))) := by
        rw [sepItems, List.append_assoc, List.cons_append, List.cons_append]
      have hskip2 : skipSp (' ' :: (reprStrChars x ++ (sepItems t ++ (']' :: rest)))) =
          reprStrChars x ++ (sepItems t ++ (']' :: rest)) := by
        unfold skipSp
        rw [List.dropWhile_cons, if_pos (by decide)]
        exact skipSp_reprStr x (sepItems t ++ (']' :: rest))
      have hhead := reprStrChars_cons_form x (sepItems t ++ (']' :: rest))
      have hlit : parseStrLit (reprStrChars x ++ (sepItems t ++ (']' :: rest))) =
          some (x, sepItems t ++ (']' :: rest)) := parseStrLit_repr x _
      have hrec := parseTail_sep t f rest hf2
      rw [hshape, parseTail_succ, skipSp_cons_of_ne ',' _ (by decide)]
      simp only []
      rw [if_neg (by decide : ¬ (',' : Char) = ']'), if_pos trivial]
      rw [hskip2, hhead]
      simp only []
      rw [if_neg (quote_ne_rbracket x)]
      rw [← hhead, hlit]
      simp only []
      rw [hrec]
      rfl
termination_by xs => xs.length

theorem parseListChars_repr : ∀ (xs : List (List Char)),
    parseListChars (pyReprList xs) = some xs
  | [] => rfl
  | x :: t => by
    have hshape : pyReprList (x :: t) =
        '[' :: (reprStrChars x ++ (sepItems t ++ [']'])) := by
      rw [pyReprList, List.cons_append, List.append_assoc]
    have hskipr := skipSp_reprStr x (sepItems t ++ [']'])
    have hhead := reprStrChars_cons_form x (sepItems t ++ [']'])
    have hlit : parseStrLit (reprStrChars x ++ (sepItems t ++ [']'])) =
        some (x, sepItems t ++ [']']) := parseStrLit_repr x _
    have hfuel : t.length + 1 ≤ (sepItems t ++ [']']).length + 1 := by
      rw [List.length_append]
      have hls := length_sepItems t
      simp only [List.length_cons, List.length_nil]
      omega
    have htail : parseTail ((sepItems t ++ [']']).length + 1) (sepItems t ++ [']']) =
        some (t, []) := parseTail_sep t ((sepItems t ++ [']']).length + 1) [] hfuel
    rw [hshape, parseListChars.eq_def]
    rw [skipSp_cons_of_ne '[' _ (by decide)]
    simp only []
    rw [if_pos trivial]
    rw [hskipr, hhead]
    simp only []
    rw [if_neg (quote_ne_rbracket x)]
    rw [← hhead, hlit]
    simp only []
    rw [htail]
    simp only []
    rw [if_pos (show skipSp ([] : List Char) = [] from rfl)]

/-- C7: parsing a cell whose content is the textual form of an ordered
list of strings reproduces exactly that ordered sequence. -/
theorem c7_parse_print_round_trip (xs : List String) :
    literalEvalStrList (pyRepr xs) = some xs := by
  unfold literalEvalStrList pyRepr
  rw [show (String.mk (pyReprList (xs.map (fun s => s.data)))).data =
    pyReprList (xs.map (fun s => s.data)) from rfl]
  rw [parseListChars_repr (xs.map (fun s => s.data))]
  simp only [Option.map_some']
  rw [List.map_map]
  have h : ((fun cs => String.mk cs) ∘ fun s => s.data) = id := funext (fun s => rfl)
  rw [h, List.map_id]

end Dashboard
